import Mathlib

/-!
Shallow embedding of the debdiff tool (Go, single file `main.go`).

Paths and Go strings are modelled as `List Char` (`Str`); Go's byte-wise
lexicographic string order becomes the lexicographic order on `List Char`.
File contents are likewise `List Char`.  Effectful collaborators are made
explicit parameters: the two content trees consulted by the divergence pass
become functions from relative path to an entry state, the md5 hex digest
becomes an abstract digest parameter (the program only compares digests for
equality), and `filepath.Walk` is given an explicit directory-tree argument
mirroring Go's walk semantics (including `SkipDir` and the error argument
passed to the callback).
-/

abbrev Str := List Char

/-- String shorthand used in concrete examples: `s "/a"` is the char list of the literal. -/
def s (x : String) : Str := x.toList

/-! ## Pattern matcher (`simpleGlob.Match`, `IsIgnored`) -/

/-- Embedding of `simpleGlob.Match`: the literal ignore rule.  Go:
`if path == string(g) { return true }; return strings.HasPrefix(path, string(g)+"/")`. -/
def simpleGlobMatch (g : Str) (path : Str) : Bool :=
  if path = g then true
  else (g ++ ['/']).isPrefixOf path

/-- The Go rule set has type `[]Glob` where `Glob` is the one-method interface
`Match(name string) bool`; it is embedded as a list of boolean matchers. -/
abbrev GlobSet := List (Str → Bool)

/-- Embedding of `(*DebDiff).IsIgnored`: true iff any rule in the set matches. -/
def IsIgnored (globs : GlobSet) (path : Str) : Bool :=
  globs.any (fun g => g path)

/-! ## Binary-search membership (`sort.SearchStrings` + `contains`) -/

/-- Loop of Go's `sort.Search` (as instantiated by `sort.SearchStrings a x`,
whose predicate is `a[h] >= x`): binary search for the least insertion point,
`i, j := 0, n; for i < j { h := (i+j)/2; if a[h] < x { i = h+1 } else { j = h } }`. -/
def searchLoop (a : List Str) (x : Str) (i j : Nat) : Nat :=
  if hij : i < j then
    if a.getD ((i + j) / 2) [] < x then searchLoop a x ((i + j) / 2 + 1) j
    else searchLoop a x i ((i + j) / 2)
  else i
termination_by j - i
decreasing_by
  all_goals omega

/-- Embedding of `sort.SearchStrings a x`. -/
def searchStrings (a : List Str) (x : Str) : Nat :=
  searchLoop a x 0 a.length

/-- Embedding of `contains`: Go
`i := sort.SearchStrings(a, x); if i == len(a) { return false }; return a[i] == x`. -/
def contains (a : List Str) (x : Str) : Bool :=
  if searchStrings a x = a.length then false
  else a.getD (searchStrings a x) [] == x

/-- Linear-scan membership, the reference the spec compares `contains` against. -/
def linearScan (a : List Str) (x : Str) : Bool :=
  a.any (fun y => y == x)

/-! ## Sorting (`sort.Strings`) -/

/-- Embedding of `sort.Strings`: sort ascending.  On a total order the output
list of any correct comparison sort is unique, so insertion sort is a faithful
model of Go's unstable pattern-defeating quicksort. -/
def sortStrings (l : List Str) : List Str :=
  List.insertionSort (· ≤ ·) l

/-! ## Line scanner (`bufio.Scanner` with `bufio.ScanLines`) -/

/-- Helper of `bufio.ScanLines`: drops one trailing carriage return. -/
def dropCR (l : Str) : Str :=
  if l.getLast? = some '\r' then l.dropLast else l

/-- Splits a character list at every newline; a list with `n` newlines yields
`n + 1` pieces (the pieces do not contain the newline characters). -/
def splitNewline : Str → List Str
  | [] => [[]]
  | c :: rest =>
    match splitNewline rest with
    | [] => [[]]
    | l :: ls => if c = '\n' then [] :: l :: ls else (c :: l) :: ls

/-- Token sequence produced by a `bufio.Scanner` over the given content with
the `ScanLines` split function: every newline terminates a token (with one
optional preceding carriage return stripped); a final token at end of input is
produced only if the remaining data is non-empty, so content ending in a
newline produces no trailing empty token and empty content produces none. -/
def scanLines (content : Str) : List Str :=
  let pieces := splitNewline content
  if pieces.getLast? = some [] then (pieces.dropLast).map dropCR
  else pieces.map dropCR

/-! ## Package inventory builder (`buildPkgFile`)

The dpkg glob enumeration and file opening are external collaborators; the
builder is embedded as a function of the list of manifest file contents
(`*.list` manifests followed by `*.conffiles` manifests).  The Go loop scans
each manifest with `bufio.Scanner` and appends every token to `ad.pkgFile`,
then `sort.Strings(ad.pkgFile)` runs once at the end. -/

/-- Embedding of `buildPkgFile` over the manifest contents. -/
def buildPkgFile (manifests : List Str) : List Str :=
  sortStrings ((manifests.map scanLines).flatten)

/-! ## Set-difference engine (`buildUnpackagedFile`) -/

/-- Embedding of `buildUnpackagedFile`: keep each name of `allFile` (in order)
that is in neither `repoFile` nor `pkgFile` according to `contains`. -/
def buildUnpackagedFile (allFile repoFile pkgFile : List Str) : List Str :=
  allFile.filter (fun name => !(contains repoFile name) && !(contains pkgFile name))

/-! ## Content-divergence engine (`filehash`, `buildDiffRepoFile`)

`os.IsNotExist` and `os.IsPermission` inspect only `*PathError`-like values;
an error wrapped by `github.com/pkg/errors.Wrap` (as `filehash` always does)
makes both return false, while `errors.Cause` recovers the original error.
`GoError` records the underlying kind together with whether the value at hand
is such a wrapper. -/

inductive ErrKind where
  | notExist
  | permission
  | otherErr
deriving DecidableEq

structure GoError where
  cause : ErrKind
  wrapped : Bool
deriving DecidableEq

/-- Embedding of `errors.Wrap` applied to an OS error of the given kind. -/
def errorsWrap (k : ErrKind) : GoError := ⟨k, true⟩

/-- Embedding of `errors.Cause`: recovers the unwrapped underlying error. -/
def errorsCause (e : GoError) : GoError := ⟨e.cause, false⟩

/-- Embedding of `os.IsNotExist`: true only on an unwrapped not-exist error. -/
def osIsNotExist (e : GoError) : Bool :=
  !e.wrapped && e.cause == ErrKind.notExist

/-- Embedding of `os.IsPermission`: true only on an unwrapped permission error. -/
def osIsPermission (e : GoError) : Bool :=
  !e.wrapped && e.cause == ErrKind.permission

/-- State of one file as seen by `os.Open` in `filehash`. -/
inductive FsEntry where
  | file (content : Str)
  | missing
  | denied
  | ioErr
deriving DecidableEq

/-- Embedding of `filehash`: returns the digest of the content and no error,
or the empty string together with the wrapped open/copy error.  The tree is a
function from the repo-relative path to the entry state (the fixed
`filepath.Join` prefix of the Go code is absorbed into the function), and the
md5 hex digest is an abstract digest parameter. -/
def filehash (fs : Str → FsEntry) (digest : Str → Str) (path : Str) : Str × Option GoError :=
  match fs path with
  | FsEntry.file c => (digest c, none)
  | FsEntry.missing => ([], some (errorsWrap ErrKind.notExist))
  | FsEntry.denied => ([], some (errorsWrap ErrKind.permission))
  | FsEntry.ioErr => ([], some (errorsWrap ErrKind.otherErr))

/-- Outcome of one of the two error-check blocks in `buildDiffRepoFile`. -/
inductive ErrCheck where
  | proceed
  | skipFile
  | fail (e : GoError)
deriving DecidableEq

/-- Root-side check of `buildDiffRepoFile`:
`if err != nil && !os.IsNotExist(errors.Cause(err)) { if os.IsPermission(errors.Cause(err)) { continue }; return err }`. -/
def realErrCheck : Option GoError → ErrCheck
  | none => ErrCheck.proceed
  | some e =>
    if !(osIsNotExist (errorsCause e)) then
      if osIsPermission (errorsCause e) then ErrCheck.skipFile else ErrCheck.fail e
    else ErrCheck.proceed

/-- Repo-side check of `buildDiffRepoFile`:
`if err != nil && !os.IsNotExist(err) { if os.IsPermission(err) { continue }; return err }`
(note: no `errors.Cause` here, unlike the root side). -/
def repoErrCheck : Option GoError → ErrCheck
  | none => ErrCheck.proceed
  | some e =>
    if !(osIsNotExist e) then
      if osIsPermission e then ErrCheck.skipFile else ErrCheck.fail e
    else ErrCheck.proceed

/-- Embedding of `buildDiffRepoFile`, iterating over `ad.repoFile`; `rootFs`
and `repoFs` give the entry state under `filepath.Join(ad.Root, file)` and
`filepath.Join(ad.Repo, file)` respectively. -/
def buildDiffRepoFile (rootFs repoFs : Str → FsEntry) (digest : Str → Str) :
    List Str → Except GoError (List Str)
  | [] => Except.ok []
  | file :: rest =>
    let real := filehash rootFs digest file
    match realErrCheck real.2 with
    | ErrCheck.fail e => Except.error e
    | ErrCheck.skipFile => buildDiffRepoFile rootFs repoFs digest rest
    | ErrCheck.proceed =>
      let repo := filehash repoFs digest file
      match repoErrCheck repo.2 with
      | ErrCheck.fail e => Except.error e
      | ErrCheck.skipFile => buildDiffRepoFile rootFs repoFs digest rest
      | ErrCheck.proceed =>
        match buildDiffRepoFile rootFs repoFs digest rest with
        | Except.error e => Except.error e
        | Except.ok l => Except.ok (if real.1 ≠ repo.1 then file :: l else l)

/-! ## Correctness of the binary-search membership test -/

/-- On a sorted list, `getD` is monotone below the length. -/
theorem sorted_getD_le (a : List Str) (hs : List.Sorted (· ≤ ·) a) (k m : Nat)
    (hkm : k ≤ m) (hm : m < a.length) : a.getD k [] ≤ a.getD m [] := by
  have hk : k < a.length := Nat.lt_of_le_of_lt hkm hm
  rw [List.getD_eq_getElem a [] hk, List.getD_eq_getElem a [] hm]
  have h := @List.Sorted.rel_get_of_le Str (· ≤ ·) inferInstance a hs
    ⟨k, hk⟩ ⟨m, hm⟩ (Fin.mk_le_mk.mpr hkm)
  simpa using h

/-- The search loop returns the least insertion point: every element strictly
below the result is `< x`, and no element at or above it is. -/
theorem searchLoop_spec (a : List Str) (x : Str) (hs : List.Sorted (· ≤ ·) a) :
    ∀ i j : Nat, j ≤ a.length → i ≤ j →
    (∀ k, k < i → a.getD k [] < x) →
    (∀ k, j ≤ k → k < a.length → ¬ a.getD k [] < x) →
    i ≤ searchLoop a x i j ∧ searchLoop a x i j ≤ j ∧
    (∀ k, k < searchLoop a x i j → a.getD k [] < x) ∧
    (∀ k, searchLoop a x i j ≤ k → k < a.length → ¬ a.getD k [] < x) := by
  intro i j
  induction i, j using searchLoop.induct a x with
  | case1 i j hij hmid ih =>
    intro hj hij' hlo hhi
    rw [searchLoop, dif_pos hij, if_pos hmid]
    have hmlt : (i + j) / 2 < j := by omega
    obtain ⟨h1, h2, h3, h4⟩ := ih hj (by omega)
      (fun k hk => by
        have hkm : k ≤ (i + j) / 2 := by omega
        exact lt_of_le_of_lt (sorted_getD_le a hs k ((i + j) / 2) hkm (by omega)) hmid)
      hhi
    exact ⟨by omega, h2, h3, h4⟩
  | case2 i j hij hmid ih =>
    intro hj hij' hlo hhi
    rw [searchLoop, dif_pos hij, if_neg hmid]
    have hmlt : (i + j) / 2 < j := by omega
    obtain ⟨h1, h2, h3, h4⟩ := ih (by omega) (by omega) hlo
      (fun k hk hk2 => by
        intro hlt
        exact hmid (lt_of_le_of_lt (sorted_getD_le a hs ((i + j) / 2) k hk hk2) hlt))
    exact ⟨h1, by omega, h3, h4⟩
  | case3 i j hij =>
    intro hj hij' hlo hhi
    rw [searchLoop, dif_neg hij]
    exact ⟨le_refl i, hij', hlo, fun k hk hk2 => hhi k (by omega) hk2⟩

/-- Least-insertion-point property restated for `searchStrings`. -/
theorem searchStrings_spec (a : List Str) (x : Str) (hs : List.Sorted (· ≤ ·) a) :
    searchStrings a x ≤ a.length ∧
    (∀ k, k < searchStrings a x → a.getD k [] < x) ∧
    (∀ k, searchStrings a x ≤ k → k < a.length → ¬ a.getD k [] < x) := by
  unfold searchStrings
  obtain ⟨h1, h2, h3, h4⟩ := searchLoop_spec a x hs 0 a.length (le_refl _) (Nat.zero_le _)
    (fun k hk => absurd hk (Nat.not_lt_zero k))
    (fun k hk hk2 => absurd (Nat.lt_of_le_of_lt hk hk2) (Nat.lt_irrefl _))
  exact ⟨h2, h3, h4⟩

/-- On a sorted list, the binary-search membership test decides list membership. -/
theorem contains_eq_true_iff_mem (a : List Str) (x : Str) (hs : List.Sorted (· ≤ ·) a) :
    contains a x = true ↔ x ∈ a := by
  obtain ⟨h2, h3, h4⟩ := searchStrings_spec a x hs
  unfold contains
  by_cases hrl : searchStrings a x = a.length
  · rw [if_pos hrl]
    refine iff_of_false (by simp) ?_
    intro hmem
    obtain ⟨m, hm, hma⟩ := List.mem_iff_getElem.mp hmem
    have := h3 m (by omega)
    rw [List.getD_eq_getElem a [] hm, hma] at this
    exact lt_irrefl x this
  · rw [if_neg hrl]
    have hrlt : searchStrings a x < a.length := by omega
    constructor
    · intro hbeq
      have heq : a.getD (searchStrings a x) [] = x := beq_iff_eq.mp hbeq
      rw [List.getD_eq_getElem a [] hrlt] at heq
      rw [← heq]
      exact List.getElem_mem hrlt
    · intro hmem
      obtain ⟨m, hm, hma⟩ := List.mem_iff_getElem.mp hmem
      have hrm : searchStrings a x ≤ m := by
        by_contra hlt
        have := h3 m (by omega)
        rw [List.getD_eq_getElem a [] hm, hma] at this
        exact lt_irrefl x this
      have hle1 : a.getD (searchStrings a x) [] ≤ x := by
        have := sorted_getD_le a hs (searchStrings a x) m hrm hm
        rwa [List.getD_eq_getElem a [] hm, hma] at this
      have hle2 : x ≤ a.getD (searchStrings a x) [] :=
        le_of_not_lt (h4 (searchStrings a x) (le_refl _) hrlt)
      exact beq_iff_eq.mpr (le_antisymm hle1 hle2)

/-- On a sorted list, a false binary-search membership test means absence. -/
theorem contains_eq_false_iff (a : List Str) (x : Str) (hs : List.Sorted (· ≤ ·) a) :
    contains a x = false ↔ ¬ x ∈ a := by
  rw [← contains_eq_true_iff_mem a x hs]
  cases contains a x <;> simp

/-! ## Claim theorems C1, C2, C3 -/

/-- C1: for every path P in the filesystem inventory, P appears in the
unpackaged-file output iff P is absent from both the overlay inventory and the
package inventory (both sorted, as the build phases guarantee), and the output
is a subsequence of the filesystem inventory, hence preserves its order. -/
theorem buildUnpackagedFile_spec (allFile repoFile pkgFile : List Str)
    (hrepo : List.Sorted (· ≤ ·) repoFile) (hpkg : List.Sorted (· ≤ ·) pkgFile) :
    (∀ P ∈ allFile,
      (P ∈ buildUnpackagedFile allFile repoFile pkgFile ↔ ¬ P ∈ repoFile ∧ ¬ P ∈ pkgFile))
    ∧ (buildUnpackagedFile allFile repoFile pkgFile).Sublist allFile := by
  constructor
  · intro P hP
    unfold buildUnpackagedFile
    rw [List.mem_filter]
    simp only [hP, true_and, Bool.and_eq_true, Bool.not_eq_true',
      contains_eq_false_iff repoFile P hrepo, contains_eq_false_iff pkgFile P hpkg]
  · exact List.filter_sublist _

/-- Witness for C1 at a concrete instance. -/
theorem buildUnpackagedFile_spec_witness :
    (∀ P ∈ [s "/a", s "/b", s "/c"],
      (P ∈ buildUnpackagedFile [s "/a", s "/b", s "/c"] [s "/a"] [s "/c"] ↔
        ¬ P ∈ [s "/a"] ∧ ¬ P ∈ [s "/c"]))
    ∧ (buildUnpackagedFile [s "/a", s "/b", s "/c"] [s "/a"] [s "/c"]).Sublist
        [s "/a", s "/b", s "/c"] :=
  buildUnpackagedFile_spec [s "/a", s "/b", s "/c"] [s "/a"] [s "/c"] (by decide) (by decide)

/-- C2: a literal rule matches iff the candidate equals the rule or starts
with the rule followed by a separator; in particular `/etc/foo` matches
`/etc/foo` and `/etc/foo/bar` but not `/etc/foobar`. -/
theorem simpleGlobMatch_spec :
    (∀ g path : Str, simpleGlobMatch g path = true ↔ (path = g ∨ (g ++ ['/']) <+: path))
    ∧ simpleGlobMatch (s "/etc/foo") (s "/etc/foo") = true
    ∧ simpleGlobMatch (s "/etc/foo") (s "/etc/foo/bar") = true
    ∧ simpleGlobMatch (s "/etc/foo") (s "/etc/foobar") = false := by
  refine ⟨?_, by decide, by decide, by decide⟩
  intro g path
  unfold simpleGlobMatch
  by_cases h : path = g
  · simp [h]
  · rw [if_neg h]
    simp [List.isPrefixOf_iff_prefix, h]

/-- C3: on any sorted, deduplicated list, binary-search membership agrees with
the linear scan on every query. -/
theorem contains_eq_linearScan (a : List Str) (x : Str)
    (hsort : List.Sorted (· < ·) a) :
    contains a x = linearScan a x := by
  have hle : List.Sorted (· ≤ ·) a := hsort.imp (fun h => le_of_lt h)
  rw [Bool.eq_iff_iff, contains_eq_true_iff_mem a x hle]
  unfold linearScan
  simp

/-- Witness for C3 at a concrete sorted, deduplicated list. -/
theorem contains_eq_linearScan_witness :
    contains [s "/a", s "/b"] (s "/b") = linearScan [s "/a", s "/b"] (s "/b") :=
  contains_eq_linearScan [s "/a", s "/b"] (s "/b") (by decide)

/-! ## Claim theorems C4, C5 -/

/-- Digest stand-in for md5 in concrete divergence runs: deterministic,
injective and never empty, which is all the pass relies on. -/
def demoDigest (c : Str) : Str := 'h' :: c

/-- C4: concrete behavior of the content-divergence pass.  The root side
treats a missing file as the empty hash and skips the path on a permission
error, but the repo (overlay) side tests `os.IsNotExist` and `os.IsPermission`
on the error already wrapped by `filehash`, where both predicates are always
false, so any failure to read the overlay copy, including a missing file or a
permission error, aborts the whole pass. -/
theorem buildDiffRepoFile_asymmetric :
    (buildDiffRepoFile (fun _ => FsEntry.file (s "x")) (fun _ => FsEntry.missing)
      demoDigest [s "/a"] = Except.error (errorsWrap ErrKind.notExist))
    ∧ (buildDiffRepoFile (fun _ => FsEntry.missing) (fun _ => FsEntry.file (s "x"))
      demoDigest [s "/a"] = Except.ok [s "/a"])
    ∧ (buildDiffRepoFile (fun _ => FsEntry.missing) (fun _ => FsEntry.missing)
      demoDigest [s "/a"] = Except.error (errorsWrap ErrKind.notExist))
    ∧ (buildDiffRepoFile (fun _ => FsEntry.denied) (fun _ => FsEntry.file (s "x"))
      demoDigest [s "/a"] = Except.ok [])
    ∧ (buildDiffRepoFile (fun _ => FsEntry.file (s "x")) (fun _ => FsEntry.denied)
      demoDigest [s "/a"] = Except.error (errorsWrap ErrKind.permission)) :=
  ⟨rfl, rfl, rfl, rfl, rfl⟩

/-- C5 counterexample: a manifest whose content has a blank first line makes
the scanner yield an empty token, which buildPkgFile records verbatim, so an
empty string is appended to the package inventory. -/
theorem buildPkgFile_records_empty_line :
    [] ∈ buildPkgFile [s "\n/a\n"] := by decide

/-- C5 amended: the package inventory builder records exactly the scanned
manifest lines, verbatim and including empty lines, and sorts the result. -/
theorem buildPkgFile_exact_lines (manifests : List Str) :
    List.Sorted (· ≤ ·) (buildPkgFile manifests)
    ∧ (buildPkgFile manifests).Perm (manifests.flatMap scanLines) := by
  refine ⟨List.sorted_insertionSort (· ≤ ·) _, ?_⟩
  rw [List.flatMap_def]
  exact List.perm_insertionSort (· ≤ ·) ((manifests.map scanLines).flatten)

/-! ## The filepath.Walk model

A directory tree as seen by the walk.  `dirErr` is a directory whose
`readDirNames` fails; `statErr` is an entry (or the root) whose `lstat`
fails.  Directory entries carry the child name as produced by `readDirNames`
(Go returns them sorted; none of the walk consumers below depends on the
entry order, so it is left arbitrary here). -/

mutual
inductive FNode where
  | file (content : Str) : FNode
  | dir (entries : Entries) : FNode
  | dirErr (e : ErrKind) : FNode
  | statErr (e : ErrKind) : FNode
inductive Entries where
  | nil : Entries
  | cons (name : Str) (node : FNode) (rest : Entries) : Entries
end

/-- The `os.FileInfo` passed to a walk callback: file info (with the content
the callback may then open), directory info, or nil (when `lstat` failed). -/
inductive FInfo where
  | fileInfo (content : Str)
  | dirInfo
  | nilInfo

/-- IsDir of the info actually passed to a callback. -/
def FInfo.isDirInfo : FInfo → Bool
  | FInfo.dirInfo => true
  | _ => false

/-- IsDir of the lstat result for a node, used by the walk itself when
deciding whether a SkipDir returned from a child is swallowed. -/
def FNode.isDirNode : FNode → Bool
  | FNode.dir _ => true
  | FNode.dirErr _ => true
  | _ => false

/-- Value a walk callback returns: nil, filepath.SkipDir, an error, or a
runtime panic escaping the callback. -/
inductive WRet where
  | ok
  | skipDir
  | fail (e : GoError)
  | panicked
deriving DecidableEq

/-- Embedding of `filepath.Join(dir, name)` for the shapes the walk builds
(no dot-cleaning is ever needed: names are plain entry names). -/
def goJoin (dir name : Str) : Str :=
  if dir = [] then name
  else if dir.getLast? = some '/' then dir ++ name
  else dir ++ '/' :: name

mutual
/-- Embedding of `path/filepath.walk(path, info, walkFn)` (the recursive
helper, entered only when `lstat` of `path` succeeded), threading the
callback's accumulator state. -/
def walkNode {σ : Type} (fn : Str → FInfo → Option ErrKind → σ → σ × WRet)
    (path : Str) : FNode → σ → σ × WRet
  | FNode.file c, st => fn path (FInfo.fileInfo c) none st
  | FNode.dir es, st =>
    match fn path FInfo.dirInfo none st with
    | (st2, WRet.ok) => walkEntries fn path es st2
    | (st2, r) => (st2, r)
  | FNode.dirErr e, st => fn path FInfo.dirInfo (some e) st
  | FNode.statErr e, st => fn path FInfo.nilInfo (some e) st

/-- Loop of `walk` over a directory's entries: a child whose lstat fails is
reported to the callback (nil/SkipDir let the loop continue, an error
returns); otherwise the child is walked, and a SkipDir coming back from a
directory child is swallowed while any other non-nil outcome returns. -/
def walkEntries {σ : Type} (fn : Str → FInfo → Option ErrKind → σ → σ × WRet)
    (dirPath : Str) : Entries → σ → σ × WRet
  | Entries.nil, st => (st, WRet.ok)
  | Entries.cons name node rest, st =>
    match node with
    | FNode.statErr e =>
      match fn (goJoin dirPath name) FInfo.nilInfo (some e) st with
      | (st2, WRet.ok) => walkEntries fn dirPath rest st2
      | (st2, WRet.skipDir) => walkEntries fn dirPath rest st2
      | (st2, r) => (st2, r)
    | other =>
      match walkNode fn (goJoin dirPath name) other st with
      | (st2, WRet.ok) => walkEntries fn dirPath rest st2
      | (st2, WRet.skipDir) =>
        if other.isDirNode then walkEntries fn dirPath rest st2
        else (st2, WRet.skipDir)
      | (st2, r) => (st2, r)
end

/-- Abort cause of a build step: a Go error value, or a runtime panic. -/
inductive RunError where
  | goErr (e : GoError)
  | panicked
deriving DecidableEq

/-- Embedding of `filepath.Walk(root, fn)`: a `statErr` node models a failing
`lstat` of the root (the callback then receives a nil info and the error); a
SkipDir escaping the walk is converted to success. -/
def filepathWalk {σ : Type} (fn : Str → FInfo → Option ErrKind → σ → σ × WRet)
    (root : Str) (node : FNode) (st : σ) : σ × Option RunError :=
  match walkNode fn root node st with
  | (st2, WRet.ok) => (st2, none)
  | (st2, WRet.skipDir) => (st2, none)
  | (st2, WRet.fail e) => (st2, some (RunError.goErr e))
  | (st2, WRet.panicked) => (st2, some RunError.panicked)

/-! ## Filesystem inventory builder (`buildAllFile`) -/

/-- Callback of `buildAllFile`: a permission error on an entry is skipped
(the walk continues), any other error is returned wrapped (fatal); an ignored
directory prunes its subtree via SkipDir, an ignored file is skipped alone;
non-ignored directories are descended but not recorded; non-ignored files are
appended. -/
def allFileFn (globs : GlobSet) :
    Str → FInfo → Option ErrKind → List Str → List Str × WRet :=
  fun path info err acc =>
    match err with
    | some e =>
      if e = ErrKind.permission then (acc, WRet.ok)
      else (acc, WRet.fail (errorsWrap e))
    | none =>
      if IsIgnored globs path then
        if info.isDirInfo then (acc, WRet.skipDir) else (acc, WRet.ok)
      else if info.isDirInfo then (acc, WRet.ok)
      else (acc ++ [path], WRet.ok)

/-- Embedding of `buildAllFile`: walk the root with `allFileFn`, then sort. -/
def buildAllFile (globs : GlobSet) (root : Str) (tree : FNode) :
    Except RunError (List Str) :=
  match filepathWalk (allFileFn globs) root tree [] with
  | (acc, none) => Except.ok (sortStrings acc)
  | (_, some e) => Except.error e

/-! ## Overlay inventory builder (`buildRepoFile`) -/

/-- Embedding of `strings.Replace(x, old, \"\", 1)`: removes the first
occurrence of `old` (recursive helper; `old` is non-empty here). -/
def replaceFirstGo : Str → Str → Str
  | [], _ => []
  | c :: rest, old =>
    if old.isPrefixOf (c :: rest) then (c :: rest).drop old.length
    else c :: replaceFirstGo rest old

/-- Embedding of `strings.Replace(x, old, \"\", 1)` including Go's empty-`old`
behavior (inserting the empty replacement leaves `x` unchanged). -/
def replaceFirst (x old : Str) : Str :=
  if old = [] then x else replaceFirstGo x old

/-- Callback of `buildRepoFile`: every walk error is returned wrapped (fatal,
including permission errors); directories are skipped; otherwise the recorded
name is the path with the first occurrence of the repo string removed and a
leading separator ensured.  Go inspects `name[0]`, which panics when the
stripped name is empty. -/
def repoFileFn (repo : Str) :
    Str → FInfo → Option ErrKind → List Str → List Str × WRet :=
  fun path info err acc =>
    match err with
    | some e => (acc, WRet.fail (errorsWrap e))
    | none =>
      if info.isDirInfo then (acc, WRet.ok)
      else
        match replaceFirst path repo with
        | [] => (acc, WRet.panicked)
        | c :: cs =>
          if c = '/' then (acc ++ [c :: cs], WRet.ok)
          else (acc ++ ['/' :: c :: cs], WRet.ok)

/-- Embedding of `buildRepoFile`: walk the repo directory with `repoFileFn`,
then sort. -/
def buildRepoFile (repo : Str) (tree : FNode) : Except RunError (List Str) :=
  match filepathWalk (repoFileFn repo) repo tree [] with
  | (acc, none) => Except.ok (sortStrings acc)
  | (_, some e) => Except.error e

/-! ## Ignore-rule loader (`buildIgnoreGlob`) -/

/-- Line loop of `buildIgnoreGlob` over one rule file's scanned lines: blank
lines and lines starting with a hash are skipped; a line containing any of
the three glob metacharacters is compiled by the external glob library
(`globCompile`), whose failure is a fatal wrapped error; any other line
becomes a literal `simpleGlob` rule. -/
def ignoreLines (globCompile : Str → Except Unit (Str → Bool)) :
    List Str → GlobSet → Except GoError GlobSet
  | [], acc => Except.ok acc
  | l :: rest, acc =>
    if l = [] then ignoreLines globCompile rest acc
    else if l.head? = some '#' then ignoreLines globCompile rest acc
    else if l.any (fun c => c == '*' || c == '?' || c == '[') then
      match globCompile l with
      | Except.error _ => Except.error (errorsWrap ErrKind.otherErr)
      | Except.ok g => ignoreLines globCompile rest (acc ++ [g])
    else ignoreLines globCompile rest (acc ++ [fun p => simpleGlobMatch l p])

/-- Callback of `buildIgnoreGlob`: any walk error is returned wrapped
(fatal); directories are skipped; a rule file's scanned lines are folded into
the rule set. -/
def ignoreFn (globCompile : Str → Except Unit (Str → Bool)) :
    Str → FInfo → Option ErrKind → GlobSet → GlobSet × WRet :=
  fun _path info err acc =>
    match err with
    | some e => (acc, WRet.fail (errorsWrap e))
    | none =>
      match info with
      | FInfo.dirInfo => (acc, WRet.ok)
      | FInfo.nilInfo => (acc, WRet.ok)
      | FInfo.fileInfo content =>
        match ignoreLines globCompile (scanLines content) acc with
        | Except.ok acc2 => (acc2, WRet.ok)
        | Except.error e => (acc, WRet.fail e)

/-- Embedding of `buildIgnoreGlob`: walk the configured ignore directory. -/
def buildIgnoreGlob (globCompile : Str → Except Unit (Str → Bool))
    (dir : Str) (tree : FNode) : Except RunError GlobSet :=
  match filepathWalk (ignoreFn globCompile) dir tree [] with
  | (acc, none) => Except.ok acc
  | (_, some e) => Except.error e

/-! ## Claim theorem C6 -/

/-- C6: with the ignore directory unset (the flag default, the empty string),
`filepath.Walk` starts with `lstat` of the empty path, which fails with a
not-exist error on every POSIX system (modelled by the `statErr` root node);
the walk callback wraps and returns that error, so the loader fails — and the
whole run aborts — instead of succeeding with an empty rule set.  The empty
rule set itself would indeed match nothing. -/
theorem buildIgnoreGlob_empty_dir :
    (∀ globCompile : Str → Except Unit (Str → Bool),
      buildIgnoreGlob globCompile [] (FNode.statErr ErrKind.notExist)
        = Except.error (RunError.goErr (errorsWrap ErrKind.notExist)))
    ∧ (∀ p : Str, IsIgnored [] p = false) :=
  ⟨fun _ => rfl, fun _ => rfl⟩

/-! ## Claim theorem C7 -/

/-- True iff a build aborted with a permission-caused Go error. -/
def failedWithPermission : Except RunError (List Str) → Bool
  | Except.error (RunError.goErr e) => e.cause == ErrKind.permission
  | _ => false

/-- The buildAllFile callback never fails with a permission cause: permission
errors are skipped instead. -/
theorem allFileFn_no_perm (globs : GlobSet) :
    ∀ (path : Str) (info : FInfo) (err : Option ErrKind) (st : List Str) (e : GoError),
      (allFileFn globs path info err st).2 = WRet.fail e → e.cause ≠ ErrKind.permission := by
  intro path info err st e h
  cases err with
  | some k =>
    by_cases hk : k = ErrKind.permission
    · simp [allFileFn, hk] at h
    · simp [allFileFn, hk] at h
      intro hc
      rw [← h] at hc
      exact hk hc
  | none =>
    cases hI : IsIgnored globs path <;> cases hD : info.isDirInfo <;>
      simp [allFileFn, hI, hD] at h

mutual
/-- A walk can only fail with an error its callback returned as a failure, so
the property of never failing with a permission cause transfers from the
callback to the whole recursive walk. -/
theorem walkNode_fail_cause {σ : Type} (fn : Str → FInfo → Option ErrKind → σ → σ × WRet)
    (hfn : ∀ path info err st e, (fn path info err st).2 = WRet.fail e →
      e.cause ≠ ErrKind.permission) :
    ∀ (p : Str) (t : FNode) (st : σ) (e : GoError),
      (walkNode fn p t st).2 = WRet.fail e → e.cause ≠ ErrKind.permission
  | p, FNode.file c, st, e => fun h => hfn p (FInfo.fileInfo c) none st e h
  | p, FNode.dir es, st, e => fun h => by
    rw [walkNode] at h
    rcases hfn0 : fn p FInfo.dirInfo none st with ⟨st2, r⟩
    rw [hfn0] at h
    cases r with
    | ok => exact walkEntries_fail_cause fn hfn p es st2 e h
    | skipDir => exact absurd h (by simp)
    | fail e2 =>
      have h2 : e2 = e := by simpa using h
      subst h2
      exact hfn p FInfo.dirInfo none st e2 (by rw [hfn0])
    | panicked => exact absurd h (by simp)
  | p, FNode.dirErr e2, st, e => fun h => hfn p FInfo.dirInfo (some e2) st e h
  | p, FNode.statErr e2, st, e => fun h => hfn p FInfo.nilInfo (some e2) st e h

/-- Entry-loop form of `walkNode_fail_cause`. -/
theorem walkEntries_fail_cause {σ : Type} (fn : Str → FInfo → Option ErrKind → σ → σ × WRet)
    (hfn : ∀ path info err st e, (fn path info err st).2 = WRet.fail e →
      e.cause ≠ ErrKind.permission) :
    ∀ (p : Str) (es : Entries) (st : σ) (e : GoError),
      (walkEntries fn p es st).2 = WRet.fail e → e.cause ≠ ErrKind.permission
  | p, Entries.nil, st, e => fun h => absurd h (by simp [walkEntries])
  | p, Entries.cons name node rest, st, e => fun h => by
    cases node with
    | statErr e3 =>
      rw [walkEntries] at h
      rcases hfn0 : fn (goJoin p name) FInfo.nilInfo (some e3) st with ⟨st2, r⟩
      rw [hfn0] at h
      cases r with
      | ok => exact walkEntries_fail_cause fn hfn p rest st2 e h
      | skipDir => exact walkEntries_fail_cause fn hfn p rest st2 e h
      | fail e4 =>
        have h2 : e4 = e := by simpa using h
        subst h2
        exact hfn (goJoin p name) FInfo.nilInfo (some e3) st e4 (by rw [hfn0])
      | panicked => exact absurd h (by simp)
    | file c =>
      rw [walkEntries] at h
      rcases hw : walkNode fn (goJoin p name) (FNode.file c) st with ⟨st2, r⟩
      rw [hw] at h
      cases r with
      | ok => exact walkEntries_fail_cause fn hfn p rest st2 e h
      | skipDir => simp [FNode.isDirNode] at h
      | fail e4 =>
        have h2 : e4 = e := by simpa using h
        subst h2
        exact walkNode_fail_cause fn hfn (goJoin p name) (FNode.file c) st e4 (by rw [hw])
      | panicked => exact absurd h (by simp)
      all_goals exact fun x hx => nomatch hx
    | dir es2 =>
      rw [walkEntries] at h
      rcases hw : walkNode fn (goJoin p name) (FNode.dir es2) st with ⟨st2, r⟩
      rw [hw] at h
      cases r with
      | ok => exact walkEntries_fail_cause fn hfn p rest st2 e h
      | skipDir => simp only [FNode.isDirNode, if_pos] at h
                   exact walkEntries_fail_cause fn hfn p rest st2 e h
      | fail e4 =>
        have h2 : e4 = e := by simpa using h
        subst h2
        exact walkNode_fail_cause fn hfn (goJoin p name) (FNode.dir es2) st e4 (by rw [hw])
      | panicked => exact absurd h (by simp)
      all_goals exact fun x hx => nomatch hx
    | dirErr e3 =>
      rw [walkEntries] at h
      rcases hw : walkNode fn (goJoin p name) (FNode.dirErr e3) st with ⟨st2, r⟩
      rw [hw] at h
      cases r with
      | ok => exact walkEntries_fail_cause fn hfn p rest st2 e h
      | skipDir => simp only [FNode.isDirNode, if_pos] at h
                   exact walkEntries_fail_cause fn hfn p rest st2 e h
      | fail e4 =>
        have h2 : e4 = e := by simpa using h
        subst h2
        exact walkNode_fail_cause fn hfn (goJoin p name) (FNode.dirErr e3) st e4 (by rw [hw])
      | panicked => exact absurd h (by simp)
      all_goals exact fun x hx => nomatch hx
end

/-- Directory with one readable file and one entry whose lstat fails with a
permission error. -/
def permTree : FNode :=
  FNode.dir (Entries.cons (s "a") (FNode.file (s "x"))
    (Entries.cons (s "b") (FNode.statErr ErrKind.permission) Entries.nil))

/-- Directory with one entry whose lstat fails with a non-permission error. -/
def otherErrTree : FNode :=
  FNode.dir (Entries.cons (s "b") (FNode.statErr ErrKind.otherErr) Entries.nil)

/-- C7: the filesystem-inventory walk never aborts with a permission error
(such entries are skipped, and the build succeeds around them), while any
other error aborts it; the overlay-inventory walk aborts on every error,
permission included.  Shown by the general no-permission-failure property of
buildAllFile plus concrete runs of both builders on a tree with a
permission-failing entry and on one with another failing entry. -/
theorem walk_error_policy :
    (∀ (globs : GlobSet) (root : Str) (t : FNode),
        failedWithPermission (buildAllFile globs root t) = false)
    ∧ buildAllFile [] (s "/r") permTree = Except.ok [s "/r/a"]
    ∧ buildRepoFile (s "/r") permTree
        = Except.error (RunError.goErr (errorsWrap ErrKind.permission))
    ∧ buildAllFile [] (s "/r") otherErrTree
        = Except.error (RunError.goErr (errorsWrap ErrKind.otherErr)) := by
  refine ⟨?_, rfl, rfl, rfl⟩
  intro globs root t
  unfold buildAllFile filepathWalk
  rcases hw : walkNode (allFileFn globs) root t [] with ⟨acc, r⟩
  cases r with
  | ok => rfl
  | skipDir => rfl
  | panicked => rfl
  | fail e =>
    have hnp := walkNode_fail_cause (allFileFn globs) (allFileFn_no_perm globs)
      root t [] e (by rw [hw])
    simp only [failedWithPermission]
    exact beq_eq_false_iff_ne.mpr hnp

/-! ## C10 counterexample -/

/-- C10 counterexample: when the overlay path names a regular file, the walk
visits the root itself as a non-directory entry, stripping the overlay prefix
leaves the empty string, and Go's read of its first byte panics. -/
theorem buildRepoFile_panics_on_file_root :
    buildRepoFile (s "/f") (FNode.file (s "x")) = Except.error RunError.panicked := rfl

/-! ## Pure characterization of the walks on error-free trees -/

mutual
/-- Paths of the regular files the filesystem walk records under `path` for a
node: an ignored node contributes nothing (for a directory this prunes the
whole subtree), a non-ignored directory is descended but not itself recorded,
and only regular files are recorded. -/
def collectFiles (globs : GlobSet) (path : Str) : FNode → List Str
  | FNode.file _ => if IsIgnored globs path then [] else [path]
  | FNode.dir es => if IsIgnored globs path then [] else collectEntries globs path es
  | FNode.dirErr _ => []
  | FNode.statErr _ => []
/-- Entry-loop form of `collectFiles`. -/
def collectEntries (globs : GlobSet) (path : Str) : Entries → List Str
  | Entries.nil => []
  | Entries.cons name node rest =>
    collectFiles globs (goJoin path name) node ++ collectEntries globs path rest
end

mutual
/-- True iff the tree contains no failing lstat or readdir. -/
def FNode.errFree : FNode → Bool
  | FNode.file _ => true
  | FNode.dir es => Entries.errFree es
  | FNode.dirErr _ => false
  | FNode.statErr _ => false
/-- Entry-loop form of `FNode.errFree`. -/
def Entries.errFree : Entries → Bool
  | Entries.nil => true
  | Entries.cons _ node rest => FNode.errFree node && Entries.errFree rest
end

mutual
/-- On an error-free subtree the filesystem walk appends exactly the
collected files to its accumulator, returning SkipDir for an ignored
directory and nil otherwise. -/
theorem walkNode_allFile_eq (globs : GlobSet) :
    ∀ (p : Str) (t : FNode) (st : List Str), FNode.errFree t = true →
      walkNode (allFileFn globs) p t st
        = (st ++ collectFiles globs p t,
           if FNode.isDirNode t && IsIgnored globs p then WRet.skipDir else WRet.ok)
  | p, FNode.file c, st => fun _ => by
    by_cases hI : IsIgnored globs p <;>
      simp [walkNode, allFileFn, collectFiles, FNode.isDirNode, hI, FInfo.isDirInfo]
  | p, FNode.dir es, st => fun hf => by
    have hes : Entries.errFree es = true := by simpa [FNode.errFree] using hf
    by_cases hI : IsIgnored globs p
    · simp [walkNode, allFileFn, collectFiles, FNode.isDirNode, hI, FInfo.isDirInfo]
    · rw [walkNode]
      have hfn0 : allFileFn globs p FInfo.dirInfo none st = (st, WRet.ok) := by
        simp [allFileFn, hI, FInfo.isDirInfo]
      rw [hfn0]
      dsimp only
      rw [walkEntries_allFile_eq globs p es st hes]
      simp [collectFiles, FNode.isDirNode, hI]
  | p, FNode.dirErr e, st => fun hf => by simp [FNode.errFree] at hf
  | p, FNode.statErr e, st => fun hf => by simp [FNode.errFree] at hf

/-- Entry-loop form of `walkNode_allFile_eq`. -/
theorem walkEntries_allFile_eq (globs : GlobSet) :
    ∀ (p : Str) (es : Entries) (st : List Str), Entries.errFree es = true →
      walkEntries (allFileFn globs) p es st = (st ++ collectEntries globs p es, WRet.ok)
  | p, Entries.nil, st => fun _ => by simp [walkEntries, collectEntries]
  | p, Entries.cons name node rest, st => fun hf => by
    have hn : FNode.errFree node = true := by
      have := hf
      simp [Entries.errFree, Bool.and_eq_true] at this
      exact this.1
    have hr : Entries.errFree rest = true := by
      have := hf
      simp [Entries.errFree, Bool.and_eq_true] at this
      exact this.2
    cases node with
    | statErr e => simp [FNode.errFree] at hn
    | dirErr e => simp [FNode.errFree] at hn
    | file c =>
      rw [walkEntries]
      rw [walkNode_allFile_eq globs (goJoin p name) (FNode.file c) st hn]
      simp only [FNode.isDirNode, Bool.false_and, if_neg Bool.false_ne_true]
      rw [walkEntries_allFile_eq globs p rest (st ++ collectFiles globs (goJoin p name) (FNode.file c)) hr]
      simp [collectEntries, List.append_assoc]
      all_goals exact fun x hx => nomatch hx
    | dir es2 =>
      rw [walkEntries]
      rw [walkNode_allFile_eq globs (goJoin p name) (FNode.dir es2) st hn]
      by_cases hI2 : IsIgnored globs (goJoin p name)
      · simp only [FNode.isDirNode, Bool.true_and, hI2, if_pos]
        have hcol : collectFiles globs (goJoin p name) (FNode.dir es2) = [] := by
          simp [collectFiles, hI2]
        rw [hcol, List.append_nil]
        rw [walkEntries_allFile_eq globs p rest st hr]
        simp [collectEntries, hcol]
      · simp only [FNode.isDirNode, Bool.true_and, hI2, if_neg, Bool.not_eq_true]
        rw [walkEntries_allFile_eq globs p rest (st ++ collectFiles globs (goJoin p name) (FNode.dir es2)) hr]
        simp [collectEntries, List.append_assoc]
      all_goals exact fun x hx => nomatch hx
end

/-- On an error-free tree, `buildAllFile` succeeds and returns exactly the
sorted collection of non-pruned files. -/
theorem buildAllFile_eq_collect (globs : GlobSet) (root : Str) (t : FNode)
    (hf : FNode.errFree t = true) :
    buildAllFile globs root t = Except.ok (sortStrings (collectFiles globs root t)) := by
  unfold buildAllFile filepathWalk
  rw [walkNode_allFile_eq globs root t [] hf]
  by_cases hb : (FNode.isDirNode t && IsIgnored globs root) = true <;> simp [hb]

mutual
/-- Everything collected is a non-ignored path and is among the tree's file
paths (the collection obtained with no ignore rules at all). -/
theorem mem_collectFiles (globs : GlobSet) :
    ∀ (p : Str) (t : FNode) (q : Str), q ∈ collectFiles globs p t →
      IsIgnored globs q = false ∧ q ∈ collectFiles [] p t
  | p, FNode.file c, q => fun hq => by
    by_cases hI : IsIgnored globs p
    · simp [collectFiles, hI] at hq
    · simp only [collectFiles, if_neg hI, List.mem_singleton] at hq
      subst hq
      refine ⟨by simpa using hI, ?_⟩
      simp [collectFiles, IsIgnored]
  | p, FNode.dir es, q => fun hq => by
    by_cases hI : IsIgnored globs p
    · simp [collectFiles, hI] at hq
    · simp only [collectFiles, if_neg hI] at hq
      obtain ⟨h1, h2⟩ := mem_collectEntries globs p es q hq
      refine ⟨h1, ?_⟩
      simpa [collectFiles, IsIgnored] using h2
  | p, FNode.dirErr e, q => fun hq => by simp [collectFiles] at hq
  | p, FNode.statErr e, q => fun hq => by simp [collectFiles] at hq

/-- Entry-loop form of `mem_collectFiles`. -/
theorem mem_collectEntries (globs : GlobSet) :
    ∀ (p : Str) (es : Entries) (q : Str), q ∈ collectEntries globs p es →
      IsIgnored globs q = false ∧ q ∈ collectEntries [] p es
  | p, Entries.nil, q => fun hq => by simp [collectEntries] at hq
  | p, Entries.cons name node rest, q => fun hq => by
    simp only [collectEntries, List.mem_append] at hq ⊢
    cases hq with
    | inl h =>
      obtain ⟨h1, h2⟩ := mem_collectFiles globs (goJoin p name) node q h
      exact ⟨h1, Or.inl h2⟩
    | inr h =>
      obtain ⟨h1, h2⟩ := mem_collectEntries globs p rest q h
      exact ⟨h1, Or.inr h2⟩
end

/-- C8: on an error-free tree the filesystem inventory build succeeds with
exactly the sorted collection in which an ignored directory prunes its whole
subtree (it contributes nothing, so no descendant is recorded), an ignored
file is skipped alone, and directories are never recorded; consequently every
recorded path is a non-ignored regular-file path of the tree, and an ignored
root records nothing at all. -/
theorem buildAllFile_ignore_semantics (globs : GlobSet) (root : Str) (t : FNode)
    (hf : FNode.errFree t = true) :
    buildAllFile globs root t = Except.ok (sortStrings (collectFiles globs root t))
    ∧ (∀ q ∈ sortStrings (collectFiles globs root t),
        IsIgnored globs q = false ∧ q ∈ collectFiles [] root t)
    ∧ (IsIgnored globs root = true → collectFiles globs root t = []) := by
  refine ⟨buildAllFile_eq_collect globs root t hf, ?_, ?_⟩
  · intro q hq
    have hq2 : q ∈ collectFiles globs root t := by
      have hperm := List.perm_insertionSort (· ≤ ·) (collectFiles globs root t)
      unfold sortStrings at hq
      exact hperm.mem_iff.mp hq
    exact mem_collectFiles globs root t q hq2
  · intro hI
    cases t <;> simp [collectFiles, hI]

/-- Tree with a plain file `a` and a directory `b` holding a file `c`. -/
def demoIgnoreTree : FNode :=
  FNode.dir (Entries.cons (s "a") (FNode.file (s "x"))
    (Entries.cons (s "b")
      (FNode.dir (Entries.cons (s "c") (FNode.file (s "y")) Entries.nil))
      Entries.nil))

/-- Rule set ignoring the subtree `/r/b`. -/
def demoGlobs : GlobSet := [fun p => simpleGlobMatch (s "/r/b") p]

/-- Witness for C8 at a concrete tree and rule set. -/
theorem buildAllFile_ignore_semantics_witness :
    buildAllFile demoGlobs (s "/r") demoIgnoreTree
      = Except.ok (sortStrings (collectFiles demoGlobs (s "/r") demoIgnoreTree))
    ∧ (∀ q ∈ sortStrings (collectFiles demoGlobs (s "/r") demoIgnoreTree),
        IsIgnored demoGlobs q = false ∧ q ∈ collectFiles [] (s "/r") demoIgnoreTree)
    ∧ (IsIgnored demoGlobs (s "/r") = true
        → collectFiles demoGlobs (s "/r") demoIgnoreTree = []) :=
  buildAllFile_ignore_semantics demoGlobs (s "/r") demoIgnoreTree rfl

/-! ## Wellformed directory trees and uniqueness of walked paths -/

/-- Entry names of a directory listing. -/
def Entries.names : Entries → List Str
  | Entries.nil => []
  | Entries.cons name _ rest => name :: Entries.names rest

mutual
/-- Wellformedness of a tree as a real directory listing: in each directory
the entry names are non-empty, contain no separator, and are distinct. -/
def FNode.wf : FNode → Bool
  | FNode.dir es => Entries.wf es
  | _ => true
/-- Entry-loop form of `FNode.wf`. -/
def Entries.wf : Entries → Bool
  | Entries.nil => true
  | Entries.cons name node rest =>
    !name.isEmpty && name.all (fun c => !(c == '/')) &&
      !(Entries.names rest).contains name && FNode.wf node && Entries.wf rest
end

/-- Unpacking of the wellformedness of a cons cell. -/
theorem entries_wf_cons (name : Str) (node : FNode) (rest : Entries)
    (h : Entries.wf (Entries.cons name node rest) = true) :
    name ≠ [] ∧ (∀ c ∈ name, (c == '/') = false) ∧ ¬ name ∈ Entries.names rest
      ∧ FNode.wf node = true ∧ Entries.wf rest = true := by
  simp only [Entries.wf, Bool.and_eq_true] at h
  obtain ⟨⟨⟨⟨h1, h2⟩, h3⟩, h4⟩, h5⟩ := h
  refine ⟨by simpa using h1, ?_, by simpa using h3, h4, h5⟩
  intro c hc
  rw [List.all_eq_true] at h2
  simpa using h2 c hc

/-- All names of a wellformed listing are non-empty and separator-free. -/
theorem names_wf : ∀ (es : Entries), Entries.wf es = true →
    ∀ name ∈ Entries.names es, name ≠ [] ∧ ∀ c ∈ name, (c == '/') = false
  | Entries.nil => by
    intro _ name hname
    simp [Entries.names] at hname
  | Entries.cons nm node rest => by
    intro hwf name hname
    obtain ⟨h1, h2, h3, h4, h5⟩ := entries_wf_cons nm node rest hwf
    simp only [Entries.names, List.mem_cons] at hname
    cases hname with
    | inl h => subst h; exact ⟨h1, h2⟩
    | inr h => exact names_wf rest h5 name h

/-- The path with exactly one trailing separator. -/
def withSep (p : Str) : Str :=
  if p.getLast? = some '/' then p else p ++ ['/']

/-- A path is a prefix of itself with a separator. -/
theorem self_prefix_withSep (p : Str) : p <+: withSep p := by
  unfold withSep
  by_cases h : p.getLast? = some '/'
  · rw [if_pos h]
  · rw [if_neg h]
    exact List.prefix_append p ['/']

/-- Joining a name under a non-empty directory path appends it past one
separator. -/
theorem goJoin_eq_withSep (p name : Str) (hp : p ≠ []) :
    goJoin p name = withSep p ++ name := by
  unfold goJoin withSep
  rw [if_neg hp]
  by_cases h : p.getLast? = some '/'
  · rw [if_pos h, if_pos h]
  · rw [if_neg h, if_neg h]
    simp

/-- A character seen by `getLast?` is a member. -/
theorem mem_of_getLast?_eq (l : Str) (a : Char) (h : l.getLast? = some a) : a ∈ l := by
  obtain ⟨hne, heq⟩ := @List.mem_getLast?_eq_getLast Char l a h
  rw [heq]
  exact List.getLast_mem hne

mutual
/-- Every collected path under a non-empty base is the base itself or lies
strictly below the base-with-separator. -/
theorem collectFiles_extends (globs : GlobSet) :
    ∀ (p : Str) (t : FNode) (q : Str), p ≠ [] → FNode.wf t = true →
      q ∈ collectFiles globs p t →
      q = p ∨ (withSep p <+: q ∧ (withSep p).length < q.length)
  | p, FNode.file c, q => fun _ _ hq => by
    by_cases hI : IsIgnored globs p
    · simp [collectFiles, hI] at hq
    · simp only [collectFiles, if_neg hI, List.mem_singleton] at hq
      exact Or.inl hq
  | p, FNode.dir es, q => fun hp hwf hq => by
    by_cases hI : IsIgnored globs p
    · simp [collectFiles, hI] at hq
    · simp only [collectFiles, if_neg hI] at hq
      exact Or.inr (collectEntries_extends globs p es q hp (by simpa [FNode.wf] using hwf) hq)
  | p, FNode.dirErr e, q => fun _ _ hq => by simp [collectFiles] at hq
  | p, FNode.statErr e, q => fun _ _ hq => by simp [collectFiles] at hq

/-- Entry-loop form of `collectFiles_extends`. -/
theorem collectEntries_extends (globs : GlobSet) :
    ∀ (p : Str) (es : Entries) (q : Str), p ≠ [] → Entries.wf es = true →
      q ∈ collectEntries globs p es →
      withSep p <+: q ∧ (withSep p).length < q.length
  | p, Entries.nil, q => fun _ _ hq => by simp [collectEntries] at hq
  | p, Entries.cons name node rest, q => fun hp hwf hq => by
    obtain ⟨h1, h2, h3, h4, h5⟩ := entries_wf_cons name node rest hwf
    simp only [collectEntries, List.mem_append] at hq
    cases hq with
    | inl h =>
      have hj : goJoin p name = withSep p ++ name := goJoin_eq_withSep p name hp
      have hp2 : goJoin p name ≠ [] := by
        rw [hj]
        intro hx
        exact h1 (List.append_eq_nil.mp hx).2
      have hext := collectFiles_extends globs (goJoin p name) node q hp2 h4 h
      rw [hj] at hext
      cases hext with
      | inl heq =>
        subst heq
        refine ⟨List.prefix_append _ _, ?_⟩
        rw [List.length_append]
        have hpos : 0 < name.length := List.length_pos.mpr h1
        omega
      | inr hpre =>
        obtain ⟨hpre2, hlen2⟩ := hpre
        have hsp : withSep p ++ name <+: withSep (withSep p ++ name) :=
          self_prefix_withSep _
        constructor
        · exact ((List.prefix_append (withSep p) name).trans hsp).trans hpre2
        · have l1 : (withSep p ++ name).length = (withSep p).length + name.length :=
            List.length_append _ _
          have l2 : (withSep p ++ name).length ≤ (withSep (withSep p ++ name)).length :=
            hsp.length_le
          have hpos : 0 < name.length := List.length_pos.mpr h1
          omega
    | inr h => exact collectEntries_extends globs p rest q hp h5 h
end

/-- First path segment of `q` past the directory prefix `base`. -/
def headSeg (base q : Str) : Str :=
  (q.drop base.length).takeWhile (fun c => !(c == '/'))

/-- A separator-free block followed by nothing or by a separator is exactly
what `takeWhile` keeps. -/
theorem takeWhile_seg (n r : Str) (hn : ∀ c ∈ n, (c == '/') = false)
    (hr : r = [] ∨ ∃ r2, r = '/' :: r2) :
    (n ++ r).takeWhile (fun c => !(c == '/')) = n := by
  induction n with
  | nil =>
    rcases hr with h | ⟨r2, h⟩ <;> subst h
    · rfl
    · simp [List.takeWhile_cons]
  | cons c cs ih =>
    have hc : (c == '/') = false := hn c (List.mem_cons_self c cs)
    simp only [List.cons_append, List.takeWhile_cons, hc, Bool.not_false, if_true]
    rw [ih (fun d hd => hn d (List.mem_cons_of_mem c hd))]

/-- A non-empty `takeWhile` pins down the head of the list. -/
theorem head_of_takeWhile_ne_nil (p : Char → Bool) (l : List Char)
    (h : l.takeWhile p ≠ []) : ∃ c cs, l = c :: cs ∧ p c = true := by
  cases l with
  | nil => simp at h
  | cons c cs =>
    rw [List.takeWhile_cons] at h
    by_cases hc : p c = true
    · exact ⟨c, cs, rfl, hc⟩
    · simp [hc] at h

/-- The head segment of anything collected under entry `name` is `name`. -/
theorem headSeg_branch (globs : GlobSet) (p name : Str) (node : FNode) (q : Str)
    (hp : p ≠ []) (hname : name ≠ []) (hnosl : ∀ c ∈ name, (c == '/') = false)
    (hwf : FNode.wf node = true)
    (hq : q ∈ collectFiles globs (goJoin p name) node) :
    headSeg (withSep p) q = name := by
  have hj : goJoin p name = withSep p ++ name := goJoin_eq_withSep p name hp
  have hp2 : goJoin p name ≠ [] := by
    rw [hj]
    intro hx
    exact hname (List.append_eq_nil.mp hx).2
  have hext := collectFiles_extends globs (goJoin p name) node q hp2 hwf hq
  rw [hj] at hext
  unfold headSeg
  cases hext with
  | inl heq =>
    subst heq
    rw [List.drop_left]
    have := takeWhile_seg name [] hnosl (Or.inl rfl)
    rwa [List.append_nil] at this
  | inr hpre =>
    obtain ⟨hpre2, -⟩ := hpre
    have hlast : (withSep p ++ name).getLast? = name.getLast? :=
      List.getLast?_append_of_ne_nil _ hname
    have hnl : ¬ (withSep p ++ name).getLast? = some '/' := by
      rw [hlast]
      intro hx
      have hmem := mem_of_getLast?_eq name '/' hx
      have := hnosl '/' hmem
      simp at this
    have hsep : withSep (withSep p ++ name) = (withSep p ++ name) ++ ['/'] := by
      have hdef : withSep (withSep p ++ name)
          = if (withSep p ++ name).getLast? = some '/' then (withSep p ++ name)
            else (withSep p ++ name) ++ ['/'] := rfl
      rw [hdef, if_neg hnl]
    rw [hsep] at hpre2
    obtain ⟨r, hr⟩ := hpre2
    rw [← hr]
    simp only [List.append_assoc, List.singleton_append]
    rw [List.drop_left]
    exact takeWhile_seg name ('/' :: r) hnosl (Or.inr ⟨r, rfl⟩)

/-- The head segment of anything collected from a listing names one of its
entries. -/
theorem headSeg_entries (globs : GlobSet) :
    ∀ (p : Str) (es : Entries) (q : Str), p ≠ [] → Entries.wf es = true →
      q ∈ collectEntries globs p es →
      ∃ name ∈ Entries.names es, headSeg (withSep p) q = name
  | p, Entries.nil, q => fun _ _ hq => by simp [collectEntries] at hq
  | p, Entries.cons name node rest, q => fun hp hwf hq => by
    obtain ⟨h1, h2, h3, h4, h5⟩ := entries_wf_cons name node rest hwf
    simp only [collectEntries, List.mem_append] at hq
    cases hq with
    | inl h =>
      exact ⟨name, by simp [Entries.names], headSeg_branch globs p name node q hp h1 h2 h4 h⟩
    | inr h =>
      obtain ⟨n2, hn2, hs⟩ := headSeg_entries globs p rest q hp h5 h
      exact ⟨n2, by simp [Entries.names, hn2], hs⟩

mutual
/-- Distinct entry names yield pairwise-distinct collected paths. -/
theorem collectFiles_nodup (globs : GlobSet) :
    ∀ (p : Str) (t : FNode), p ≠ [] → FNode.wf t = true → (collectFiles globs p t).Nodup
  | p, FNode.file c => fun _ _ => by
    by_cases hI : IsIgnored globs p <;> simp [collectFiles, hI]
  | p, FNode.dir es => fun hp hwf => by
    by_cases hI : IsIgnored globs p
    · simp [collectFiles, hI]
    · simp only [collectFiles, if_neg hI]
      exact collectEntries_nodup globs p es hp (by simpa [FNode.wf] using hwf)
  | p, FNode.dirErr e => fun _ _ => by simp [collectFiles]
  | p, FNode.statErr e => fun _ _ => by simp [collectFiles]

/-- Entry-loop form of `collectFiles_nodup`. -/
theorem collectEntries_nodup (globs : GlobSet) :
    ∀ (p : Str) (es : Entries), p ≠ [] → Entries.wf es = true →
      (collectEntries globs p es).Nodup
  | p, Entries.nil => fun _ _ => by simp [collectEntries]
  | p, Entries.cons name node rest => fun hp hwf => by
    obtain ⟨h1, h2, h3, h4, h5⟩ := entries_wf_cons name node rest hwf
    simp only [collectEntries]
    have hp2 : goJoin p name ≠ [] := by
      rw [goJoin_eq_withSep p name hp]
      intro hx
      exact h1 (List.append_eq_nil.mp hx).2
    refine List.Nodup.append (collectFiles_nodup globs (goJoin p name) node hp2 h4)
      (collectEntries_nodup globs p rest hp h5) ?_
    intro q hq1 hq2
    have hs1 : headSeg (withSep p) q = name :=
      headSeg_branch globs p name node q hp h1 h2 h4 hq1
    obtain ⟨n2, hn2, hs2⟩ := headSeg_entries globs p rest q hp h5 hq2
    rw [hs1] at hs2
    exact h3 (hs2 ▸ hn2)
end

/-! ## The overlay name normalization -/

/-- When `old` is a prefix, removing its first occurrence is dropping it. -/
theorem replaceFirst_drop (q old : Str) (h : old <+: q) :
    replaceFirst q old = q.drop old.length := by
  unfold replaceFirst
  by_cases ho : old = []
  · subst ho
    simp
  · rw [if_neg ho]
    cases q with
    | nil => exact absurd (List.prefix_nil.mp h) ho
    | cons c rest =>
      rw [replaceFirstGo, if_pos (List.isPrefixOf_iff_prefix.mpr h)]

/-- Name recorded by the overlay callback for a visited path whose strip is
non-empty: the strip with a leading separator ensured. -/
def stripName (repo q : Str) : Str :=
  match replaceFirst q repo with
  | [] => []
  | c :: cs => if c = '/' then c :: cs else '/' :: c :: cs

/-- Stripping the overlay prefix from a path collected below a wellformed
overlay directory never yields the empty string. -/
theorem collect_strip_ne (repo : Str) (es : Entries) (q : Str)
    (hrepo : repo ≠ []) (hwf : Entries.wf es = true)
    (hq : q ∈ collectFiles [] repo (FNode.dir es)) :
    replaceFirst q repo ≠ [] := by
  have hq2 : q ∈ collectEntries [] repo es := by
    simpa [collectFiles, IsIgnored] using hq
  obtain ⟨hpre, hlen⟩ := collectEntries_extends [] repo es q hrepo hwf hq2
  have hpre2 : repo <+: q := (self_prefix_withSep repo).trans hpre
  rw [replaceFirst_drop q repo hpre2]
  intro hx
  rw [List.drop_eq_nil_iff] at hx
  have hle := (self_prefix_withSep repo).length_le
  omega

mutual
/-- On an error-free subtree, when every visited file path strips to a
non-empty name, the overlay walk appends exactly the normalized names of the
collected files and returns nil. -/
theorem walkNode_repoFile_eq (repo : Str) :
    ∀ (p : Str) (t : FNode) (st : List Str), FNode.errFree t = true →
      (∀ q ∈ collectFiles [] p t, replaceFirst q repo ≠ []) →
      walkNode (repoFileFn repo) p t st
        = (st ++ (collectFiles [] p t).map (stripName repo), WRet.ok)
  | p, FNode.file c, st => fun _ hnp => by
    have hne := hnp p (by simp [collectFiles, IsIgnored])
    rcases hrf : replaceFirst p repo with _ | ⟨c0, cs⟩
    · exact absurd hrf hne
    · by_cases hc : c0 = '/' <;>
        simp [walkNode, repoFileFn, FInfo.isDirInfo, hrf, hc, collectFiles,
          IsIgnored, stripName]
  | p, FNode.dir es, st => fun hf hnp => by
    have hes : Entries.errFree es = true := by simpa [FNode.errFree] using hf
    rw [walkNode]
    have hfn0 : repoFileFn repo p FInfo.dirInfo none st = (st, WRet.ok) := by
      simp [repoFileFn, FInfo.isDirInfo]
    rw [hfn0]
    dsimp only
    rw [walkEntries_repoFile_eq repo p es st hes
      (by simpa [collectFiles, IsIgnored] using hnp)]
    simp [collectFiles, IsIgnored]
  | p, FNode.dirErr e, st => fun hf _ => by simp [FNode.errFree] at hf
  | p, FNode.statErr e, st => fun hf _ => by simp [FNode.errFree] at hf

/-- Entry-loop form of `walkNode_repoFile_eq`. -/
theorem walkEntries_repoFile_eq (repo : Str) :
    ∀ (p : Str) (es : Entries) (st : List Str), Entries.errFree es = true →
      (∀ q ∈ collectEntries [] p es, replaceFirst q repo ≠ []) →
      walkEntries (repoFileFn repo) p es st
        = (st ++ (collectEntries [] p es).map (stripName repo), WRet.ok)
  | p, Entries.nil, st => fun _ _ => by simp [walkEntries, collectEntries]
  | p, Entries.cons name node rest, st => fun hf hnp => by
    have hn : FNode.errFree node = true := by
      have h0 := hf
      simp [Entries.errFree, Bool.and_eq_true] at h0
      exact h0.1
    have hr : Entries.errFree rest = true := by
      have h0 := hf
      simp [Entries.errFree, Bool.and_eq_true] at h0
      exact h0.2
    have hnp1 : ∀ q ∈ collectFiles [] (goJoin p name) node, replaceFirst q repo ≠ [] := by
      intro q hq
      exact hnp q (by simp [collectEntries, List.mem_append, hq])
    have hnp2 : ∀ q ∈ collectEntries [] p rest, replaceFirst q repo ≠ [] := by
      intro q hq
      exact hnp q (by simp [collectEntries, List.mem_append, hq])
    cases node with
    | statErr e => simp [FNode.errFree] at hn
    | dirErr e => simp [FNode.errFree] at hn
    | file c =>
      rw [walkEntries]
      rw [walkNode_repoFile_eq repo (goJoin p name) (FNode.file c) st hn hnp1]
      dsimp only
      rw [walkEntries_repoFile_eq repo p rest
        (st ++ (collectFiles [] (goJoin p name) (FNode.file c)).map (stripName repo)) hr hnp2]
      simp [collectEntries, List.append_assoc]
      all_goals exact fun x hx => nomatch hx
    | dir es2 =>
      rw [walkEntries]
      rw [walkNode_repoFile_eq repo (goJoin p name) (FNode.dir es2) st hn hnp1]
      dsimp only
      rw [walkEntries_repoFile_eq repo p rest
        (st ++ (collectFiles [] (goJoin p name) (FNode.dir es2)).map (stripName repo)) hr hnp2]
      simp [collectEntries, List.append_assoc]
      all_goals exact fun x hx => nomatch hx
end

/-- On a wellformed, error-free overlay directory the overlay inventory build
succeeds with exactly the sorted normalized names of the collected files. -/
theorem buildRepoFile_eq_collect (repo : Str) (es : Entries)
    (hrepo : repo ≠ []) (hwf : Entries.wf es = true)
    (hfree : Entries.errFree es = true) :
    buildRepoFile repo (FNode.dir es)
      = Except.ok (sortStrings
          ((collectFiles [] repo (FNode.dir es)).map (stripName repo))) := by
  unfold buildRepoFile filepathWalk
  rw [walkNode_repoFile_eq repo repo (FNode.dir es) []
    (by simpa [FNode.errFree] using hfree)
    (fun q hq => collect_strip_ne repo es q hrepo hwf hq)]
  simp

/-- Unfolding of `stripName` at a non-empty strip. -/
theorem stripName_cons (repo q : Str) (c : Char) (cs : Str)
    (h : replaceFirst q repo = c :: cs) :
    stripName repo q = if c = '/' then c :: cs else '/' :: c :: cs := by
  unfold stripName
  rw [h]

/-- Within one wellformed overlay walk the name normalization is injective,
so the overlay inventory has pairwise-distinct entries. -/
theorem repo_collect_map_nodup (repo : Str) (es : Entries)
    (hrepo : repo ≠ []) (hwf : Entries.wf es = true) :
    ((collectFiles [] repo (FNode.dir es)).map (stripName repo)).Nodup := by
  refine List.Nodup.map_on ?_
    (collectFiles_nodup [] repo (FNode.dir es) hrepo (by simpa [FNode.wf] using hwf))
  intro x hx y hy heq
  have hx2 : x ∈ collectEntries [] repo es := by simpa [collectFiles, IsIgnored] using hx
  have hy2 : y ∈ collectEntries [] repo es := by simpa [collectFiles, IsIgnored] using hy
  obtain ⟨hpx, hlx⟩ := collectEntries_extends [] repo es x hrepo hwf hx2
  obtain ⟨hpy, hly⟩ := collectEntries_extends [] repo es y hrepo hwf hy2
  by_cases hsl : repo.getLast? = some '/'
  · have hws : withSep repo = repo := by
      have hdef : withSep repo
          = if repo.getLast? = some '/' then repo else repo ++ ['/'] := rfl
      rw [hdef, if_pos hsl]
    rw [hws] at hpx hpy hlx hly
    obtain ⟨rx, hrx⟩ := hpx
    obtain ⟨ry, hry⟩ := hpy
    obtain ⟨nx, hnxmem, hnx⟩ := headSeg_entries [] repo es x hrepo hwf hx2
    obtain ⟨ny, hnymem, hny⟩ := headSeg_entries [] repo es y hrepo hwf hy2
    rw [hws] at hnx hny
    unfold headSeg at hnx hny
    rw [← hrx, List.drop_left] at hnx
    rw [← hry, List.drop_left] at hny
    have hnxne : nx ≠ [] := (names_wf es hwf nx hnxmem).1
    have hnyne : ny ≠ [] := (names_wf es hwf ny hnymem).1
    obtain ⟨cx, rtx, hrxeq, hcx⟩ :=
      head_of_takeWhile_ne_nil _ rx (by rw [hnx]; exact hnxne)
    obtain ⟨cy, rty, hryeq, hcy⟩ :=
      head_of_takeWhile_ne_nil _ ry (by rw [hny]; exact hnyne)
    have hcx2 : ¬ cx = '/' := by simpa using hcx
    have hcy2 : ¬ cy = '/' := by simpa using hcy
    have hdx : replaceFirst x repo = cx :: rtx := by
      rw [replaceFirst_drop x repo ⟨rx, hrx⟩, ← hrx, List.drop_left]
      exact hrxeq
    have hdy : replaceFirst y repo = cy :: rty := by
      rw [replaceFirst_drop y repo ⟨ry, hry⟩, ← hry, List.drop_left]
      exact hryeq
    have hsx := stripName_cons repo x cx rtx hdx
    rw [if_neg hcx2] at hsx
    have hsy := stripName_cons repo y cy rty hdy
    rw [if_neg hcy2] at hsy
    rw [hsx, hsy] at heq
    simp only [List.cons.injEq, true_and] at heq
    rw [← hrx, ← hry, hrxeq, hryeq, heq.1, heq.2]
  · have hws : withSep repo = repo ++ ['/'] := by
      have hdef : withSep repo
          = if repo.getLast? = some '/' then repo else repo ++ ['/'] := rfl
      rw [hdef, if_neg hsl]
    rw [hws] at hpx hpy
    obtain ⟨rx, hrx⟩ := hpx
    obtain ⟨ry, hry⟩ := hpy
    have hrx2 : repo ++ ('/' :: rx) = x := by
      rw [← hrx]
      simp
    have hry2 : repo ++ ('/' :: ry) = y := by
      rw [← hry]
      simp
    have hdx : replaceFirst x repo = '/' :: rx := by
      rw [replaceFirst_drop x repo ⟨ '/' :: rx, hrx2⟩, ← hrx2, List.drop_left]
    have hdy : replaceFirst y repo = '/' :: ry := by
      rw [replaceFirst_drop y repo ⟨ '/' :: ry, hry2⟩, ← hry2, List.drop_left]
    have hsx := stripName_cons repo x '/' rx hdx
    rw [if_pos rfl] at hsx
    have hsy := stripName_cons repo y '/' ry hdy
    rw [if_pos rfl] at hsy
    rw [hsx, hsy] at heq
    simp only [List.cons.injEq, true_and] at heq
    rw [← hrx2, ← hry2, heq]

/-! ## Claim theorems C9, C10 -/

/-- C9 counterexample: two manifests both listing the same path leave a
duplicate in the package inventory — nothing dedupes after the sort. -/
theorem buildPkgFile_duplicates :
    ¬ (buildPkgFile [s "/a\n", s "/a\n"]).Nodup := by decide

/-- C9 amended: every inventory is lexicographically sorted once its build
succeeds, and the filesystem and overlay inventories contain pairwise
distinct paths (for wellformed, error-free trees; in this purely functional
embedding inventories are values and are never mutated after being
returned); the package inventory, however, may contain duplicates, see the
counterexample. -/
theorem inventories_sorted_unique :
    (∀ manifests, List.Sorted (· ≤ ·) (buildPkgFile manifests))
    ∧ (∀ (globs : GlobSet) (root : Str) (t : FNode) (l : List Str),
        buildAllFile globs root t = Except.ok l → List.Sorted (· ≤ ·) l)
    ∧ (∀ (repo : Str) (t : FNode) (l : List Str),
        buildRepoFile repo t = Except.ok l → List.Sorted (· ≤ ·) l)
    ∧ (∀ (globs : GlobSet) (root : Str) (t : FNode) (l : List Str),
        root ≠ [] → FNode.wf t = true → FNode.errFree t = true →
        buildAllFile globs root t = Except.ok l → l.Nodup)
    ∧ (∀ (repo : Str) (es : Entries) (l : List Str),
        repo ≠ [] → Entries.wf es = true → Entries.errFree es = true →
        buildRepoFile repo (FNode.dir es) = Except.ok l → l.Nodup) := by
  refine ⟨?_, ?_, ?_, ?_, ?_⟩
  · intro manifests
    exact List.sorted_insertionSort (· ≤ ·) _
  · intro globs root t l h
    unfold buildAllFile at h
    rcases hw : filepathWalk (allFileFn globs) root t [] with ⟨acc, oe⟩
    rw [hw] at h
    cases oe with
    | none =>
      have hl : sortStrings acc = l := by simpa using h
      rw [← hl]
      exact List.sorted_insertionSort (· ≤ ·) acc
    | some e => simp at h
  · intro repo t l h
    unfold buildRepoFile at h
    rcases hw : filepathWalk (repoFileFn repo) repo t [] with ⟨acc, oe⟩
    rw [hw] at h
    cases oe with
    | none =>
      have hl : sortStrings acc = l := by simpa using h
      rw [← hl]
      exact List.sorted_insertionSort (· ≤ ·) acc
    | some e => simp at h
  · intro globs root t l hroot hwf hfree h
    rw [buildAllFile_eq_collect globs root t hfree] at h
    have hl : sortStrings (collectFiles globs root t) = l := by simpa using h
    rw [← hl]
    exact ((List.perm_insertionSort (· ≤ ·) _).nodup_iff).mpr
      (collectFiles_nodup globs root t hroot hwf)
  · intro repo es l hrepo hwf hfree h
    rw [buildRepoFile_eq_collect repo es hrepo hwf hfree] at h
    have hl : sortStrings ((collectFiles [] repo (FNode.dir es)).map (stripName repo)) = l := by
      simpa using h
    rw [← hl]
    exact ((List.perm_insertionSort (· ≤ ·) _).nodup_iff).mpr
      (repo_collect_map_nodup repo es hrepo hwf)

/-- Entries of the demo tree (a file `a`, and a directory `b` with file `c`). -/
def demoEntries : Entries :=
  Entries.cons (s "a") (FNode.file (s "x"))
    (Entries.cons (s "b")
      (FNode.dir (Entries.cons (s "c") (FNode.file (s "y")) Entries.nil))
      Entries.nil)

/-- Witness for C9 at concrete manifests and concrete runs of both walks. -/
theorem inventories_sorted_unique_witness :
    List.Sorted (· ≤ ·) (buildPkgFile [s "/a\n"])
    ∧ List.Sorted (· ≤ ·) [s "/r/a", s "/r/b/c"]
    ∧ List.Sorted (· ≤ ·) [s "/a", s "/b/c"]
    ∧ ([s "/r/a", s "/r/b/c"] : List Str).Nodup
    ∧ ([s "/a", s "/b/c"] : List Str).Nodup :=
  ⟨inventories_sorted_unique.1 [s "/a\n"],
   inventories_sorted_unique.2.1 [] (s "/r") (FNode.dir demoEntries) _ rfl,
   inventories_sorted_unique.2.2.1 (s "/r") (FNode.dir demoEntries) _ rfl,
   inventories_sorted_unique.2.2.2.1 [] (s "/r") (FNode.dir demoEntries) _
     (by decide) rfl rfl rfl,
   inventories_sorted_unique.2.2.2.2 (s "/r") demoEntries _
     (by decide) rfl rfl rfl⟩

/-- C10 amended: over an overlay path naming a wellformed directory, every
visited non-directory entry strips to a non-empty name, so the inspection of
the first byte is safe and on an error-free tree the build succeeds; when the
overlay path names a regular file instead, the stripped name is empty and the
first-byte read panics (see the counterexample). -/
theorem repoFile_strip_safety (repo : Str) (es : Entries)
    (hrepo : repo ≠ []) (hwf : Entries.wf es = true)
    (hfree : Entries.errFree es = true) :
    (∀ q ∈ collectFiles [] repo (FNode.dir es), replaceFirst q repo ≠ [])
    ∧ buildRepoFile repo (FNode.dir es)
        = Except.ok (sortStrings
            ((collectFiles [] repo (FNode.dir es)).map (stripName repo))) :=
  ⟨fun q hq => collect_strip_ne repo es q hrepo hwf hq,
   buildRepoFile_eq_collect repo es hrepo hwf hfree⟩

/-- Witness for C10 at a concrete overlay tree. -/
theorem repoFile_strip_safety_witness :
    (∀ q ∈ collectFiles [] (s "/r") (FNode.dir demoEntries),
        replaceFirst q (s "/r") ≠ [])
    ∧ buildRepoFile (s "/r") (FNode.dir demoEntries)
        = Except.ok (sortStrings
            ((collectFiles [] (s "/r") (FNode.dir demoEntries)).map (stripName (s "/r")))) :=
  repoFile_strip_safety (s "/r") demoEntries (by decide) rfl rfl
